import Mathlib

/-!
Shallow embedding of the rslm-matphyslib 4×4 tensor core
(`src/maths/linalg.hpp`, `deriv.hpp`, `connection.hpp`, `curvature.hpp`,
`integrators.hpp`, `physics/einstein_fit.hpp`, `audits/pd_proxy.hpp`).

The C++ `real` (double) is embedded as an arbitrary linear ordered field α,
instantiated at ℚ for executable witnesses and at ℝ for the theorems
involving `std::sqrt` (which is passed as an explicit function parameter).
-/

namespace rslm

variable {α : Type} [LinearOrderedField α]

/-- A 4-component spacetime vector (`linalg.hpp vec4`). -/
abbrev vec4 (α : Type) := Fin 4 → α

/-- A 4×4 row-major matrix (`linalg.hpp mat4`). -/
abbrev mat4 (α : Type) := Matrix (Fin 4) (Fin 4) α

/-- Diagonal matrix builder (`linalg.hpp diag` / `sym4::from_diag`). -/
def diag4 (a0 a1 a2 a3 : α) : mat4 α :=
  Matrix.of fun i j => if i = j then ![a0, a1, a2, a3] i else 0

/-- Minkowski metric η = diag(−1,1,1,1) (`linalg.hpp minkowski_eta`). -/
def minkowski_eta : mat4 α := diag4 (-1) 1 1 1

/-- Matrix product (`linalg.hpp mul(mat4,mat4)`). -/
def mul (A B : mat4 α) : mat4 α := Matrix.of fun r c => ∑ k, A r k * B k c

/-- ∞-norm: max row-sum of absolute values, folded from 0 as the C++ loop
does (`linalg.hpp norm_inf`). -/
def norm_inf (A : mat4 α) : α :=
  max (max (max (max 0 (∑ c, |A 0 c|)) (∑ c, |A 1 c|)) (∑ c, |A 2 c|)) (∑ c, |A 3 c|)

/-- vᵀ g v (`quadform.hpp qform`). -/
def qform (g : mat4 α) (v : vec4 α) : α :=
  ∑ r, v r * (∑ c, g r c * v c)

/-! ### Gauss–Jordan inverse (`linalg.hpp inverse`)

The augmented 4×8 system is represented as `Fin 4 → Fin 8 → α` and the
`for (k=0..3)` elimination loop as one `elimStep` per column, sequenced by
`fwdRun`.  `dt`/`sg` carry the running determinant and permutation sign. -/

/-- Left-block column index of the augmented 4×8 system. -/
def lcol (c : Fin 4) : Fin 8 := ⟨c.val, by omega⟩

/-- Right-block column index of the augmented 4×8 system. -/
def rcol (c : Fin 4) : Fin 8 := ⟨c.val + 4, by omega⟩

/-- State of the Gauss–Jordan elimination: the augmented rows plus the
running determinant product and permutation sign. -/
structure AugState (α : Type) where
  aug : Fin 4 → Fin 8 → α
  dt : α
  sg : α

/-- Initial augmented system `[A | I]` with `dt = 1`, `sg = +1`. -/
def initAug (A : mat4 α) : AugState α :=
  ⟨fun r c => if h : c.val < 4 then A r ⟨c.val, h⟩ else if c.val = r.val + 4 then 1 else 0,
   1, 1⟩

/-- Partial-pivot search on column k over rows k..3: starts from row k and
takes a strictly larger absolute value, as the C++ loop does.  Returns the
pivot row and its absolute value. -/
def pivotSearch (g : Fin 4 → Fin 8 → α) (k : Fin 4) : Fin 4 × α :=
  ((List.finRange 4).filter fun r => k < r).foldl
    (fun pm r => if |g r (lcol k)| > pm.2 then (r, |g r (lcol k)|) else pm)
    (k, |g k (lcol k)|)

/-- Swap two rows of the augmented system. -/
def swapRows (g : Fin 4 → Fin 8 → α) (i j : Fin 4) : Fin 4 → Fin 8 → α :=
  fun r => if r = i then g j else if r = j then g i else g r

/-- Multiply row k by a scalar. -/
def scaleRow (g : Fin 4 → Fin 8 → α) (k : Fin 4) (s : α) : Fin 4 → Fin 8 → α :=
  fun r c => if r = k then g r c * s else g r c

/-- Eliminate column k from all rows below k (`aug[r] -= f * aug[k]`). -/
def eliminateBelow (g : Fin 4 → Fin 8 → α) (k : Fin 4) : Fin 4 → Fin 8 → α :=
  fun r c => if k < r then g r c - g r (lcol k) * g k c else g r c

/-- Conditional row swap of the elimination (`if (piv != k) swap`). -/
def elimSwap (g : Fin 4 → Fin 8 → α) (k piv : Fin 4) : Fin 4 → Fin 8 → α :=
  if piv = k then g else swapRows g k piv

/-- One forward-elimination step of `inverse` at column k: pivot search,
failure when the best pivot magnitude is below `eps`, row swap with sign
flip, determinant update, pivot-row scaling, elimination below. -/
def elimStep (k : Fin 4) (eps : α) (S : AugState α) : Option (AugState α) :=
  if (pivotSearch S.aug k).2 < eps then none
  else
    some ⟨eliminateBelow (scaleRow (elimSwap S.aug k (pivotSearch S.aug k).1) k
            (1 / elimSwap S.aug k (pivotSearch S.aug k).1 k (lcol k))) k,
          S.dt * elimSwap S.aug k (pivotSearch S.aug k).1 k (lcol k),
          if (pivotSearch S.aug k).1 = k then S.sg else -S.sg⟩

/-- The first n forward-elimination steps (n ≤ 4 is used). -/
def fwdRun (A : mat4 α) (eps : α) : ℕ → Option (AugState α)
  | 0 => some (initAug A)
  | n + 1 => (fwdRun A eps n).bind fun S =>
      if h : n < 4 then elimStep ⟨n, h⟩ eps S else some S

/-- One back-substitution step at column k: clear column k above row k. -/
def backStep (g : Fin 4 → Fin 8 → α) (k : Fin 4) : Fin 4 → Fin 8 → α :=
  fun r c => if r < k then g r c - g r (lcol k) * g k c else g r c

/-- Gauss–Jordan inverse (`linalg.hpp inverse`): returns
`some (A⁻¹, det, cond∞)` on success and `none` when at some step the best
available pivot magnitude is below `eps`. -/
def inverse (A : mat4 α) (eps : α) : Option (mat4 α × α × α) :=
  (fwdRun A eps 4).map fun S =>
    let g := backStep (backStep (backStep (backStep S.aug 3) 2) 1) 0
    let Ainv : mat4 α := Matrix.of fun r c => g r (rcol c)
    let dt := S.dt * S.sg
    (Ainv, dt, norm_inf A * norm_inf Ainv)

/-! ### Fields and finite differences (`field.hpp`, `deriv.hpp`) -/

/-- `IMetricField`: a queryable metric g(x) (the C++ interface returns a
`sym4`; symmetry is stated as a hypothesis where a claim needs it). -/
abbrev MetricField (α : Type) := vec4 α → mat4 α

/-- `IPotential`: a queryable scalar potential V(x). -/
abbrev Potential (α : Type) := vec4 α → α

/-- The constant flat field (`field.hpp MinkowskiField`). -/
def MinkowskiField : MetricField α := fun _ => minkowski_eta

/-- Displace coordinate a of x by d (`xp.v[a] += h`). -/
def shift (x : vec4 α) (a : Fin 4) (d : α) : vec4 α :=
  Function.update x a (x a + d)

/-- Default finite-difference step `fd_h = 1e-4` (`config.hpp` /
`units::C().fd_h`), used by the call sites that rely on the C++ default
argument. -/
def fd_h : α := 1 / 10000

/-- Central finite difference ∂ₐ g(x) (`deriv.hpp dmetric`). -/
def dmetric (F : MetricField α) (x : vec4 α) (a : Fin 4) (h : α) : mat4 α :=
  Matrix.of fun r c =>
    (F (shift x a h) r c - F (shift x a (-h)) r c) * ((1 / 2) / h)

/-- All four partials ∂ₐ g (`deriv.hpp dmetric4`). -/
def dmetric4 (F : MetricField α) (x : vec4 α) (h : α) : Fin 4 → mat4 α :=
  fun a => dmetric F x a h

/-- Potential gradient by central differences (`deriv.hpp gradV`). -/
def gradV (P : Potential α) (x : vec4 α) (h : α) : vec4 α :=
  fun a => (P (shift x a h) - P (shift x a (-h))) * ((1 / 2) / h)

/-! ### Connection (`connection.hpp`) -/

/-- Christoffel symbols Γ^μ_{αβ} (`connection.hpp Gamma`). -/
abbrev Gamma (α : Type) := Fin 4 → Fin 4 → Fin 4 → α

/-- Metric, inverse, partials and inversion flag at one point
(`connection.hpp MetricPack`). -/
structure MetricPack (α : Type) where
  g : mat4 α
  g_inv : mat4 α
  dg : Fin 4 → mat4 α
  inv_ok : Bool

/-- `connection.hpp prepare_metric`: evaluates g(x), inverts it with
tolerance 1e-14, computes ∂g with the default step.  On inversion failure
the C++ out-parameter `inv` keeps its zero default, so `g_inv` is the zero
matrix. -/
def prepare_metric (F : MetricField α) (x : vec4 α) : MetricPack α :=
  match inverse (F x) (1 / 100000000000000) with
  | some (iv, _, _) => ⟨F x, iv, dmetric4 F x fd_h, true⟩
  | none => ⟨F x, Matrix.of fun _ _ => 0, dmetric4 F x fd_h, false⟩

/-- Γ^μ_{αβ} = ½ g^{μν}(∂_α g_{νβ} + ∂_β g_{να} − ∂_ν g_{αβ})
(`connection.hpp christoffel`). -/
def christoffel (M : MetricPack α) : Gamma α :=
  fun mu a b => (1 / 2) * ∑ nu, M.g_inv mu nu * (M.dg a nu b + M.dg b nu a - M.dg nu a b)

/-! ### Curvature (`curvature.hpp`) -/

/-- ∂ₐ Γ by central difference of freshly rebuilt Γ at x ± h·eₐ
(`curvature.hpp dGamma_dir`). -/
def dGamma_dir (F : MetricField α) (x : vec4 α) (a : Fin 4) (h : α) : Gamma α :=
  fun mu nu b =>
    (christoffel (prepare_metric F (shift x a h)) mu nu b -
      christoffel (prepare_metric F (shift x a (-h))) mu nu b) * ((1 / 2) / h)

/-- R^μ_{ναβ} = ∂_αΓ^μ_{νβ} − ∂_βΓ^μ_{να} + Γ^μ_{σα}Γ^σ_{νβ} − Γ^μ_{σβ}Γ^σ_{να}
(`curvature.hpp riemann_at`), with the default finite-difference step. -/
def riemann_at (F : MetricField α) (x : vec4 α) : Fin 4 → Fin 4 → Fin 4 → Fin 4 → α :=
  fun mu nu a b =>
    dGamma_dir F x a fd_h mu nu b - dGamma_dir F x b fd_h mu nu a +
      ∑ sig, (christoffel (prepare_metric F x) mu sig a *
                christoffel (prepare_metric F x) sig nu b -
              christoffel (prepare_metric F x) mu sig b *
                christoffel (prepare_metric F x) sig nu a)

/-- Ricci contraction R_{αβ} = R^μ_{αμβ} (`curvature.hpp ricci`). -/
def ricci (R : Fin 4 → Fin 4 → Fin 4 → Fin 4 → α) : mat4 α :=
  Matrix.of fun a b => ∑ mu, R mu a mu b

/-- Scalar curvature R = g^{αβ} R_{αβ} (`curvature.hpp scalar`). -/
def scalar (g_inv : mat4 α) (Ric : mat4 α) : α :=
  ∑ a, ∑ b, g_inv a b * Ric a b

/-! ### Physics assembly (`physics/einstein_fit.hpp`) -/

/-- Einstein tensor G = Ricci − ½ g R (`einstein_fit.hpp einstein_at`).
The C++ fills a default-constructed `sym4` entrywise, without
symmetrization, which is mirrored here. -/
def einstein_at (F : MetricField α) (x : vec4 α) : mat4 α :=
  Matrix.of fun i j =>
    ricci (riemann_at F x) i j -
      (1 / 2) * F x i j *
        scalar (prepare_metric F x).g_inv (ricci (riemann_at F x))

/-! ### Geodesic integrator (`integrators.hpp`)

`std::sqrt` is passed in as the function parameter `sq`; the ℝ theorems
instantiate it with `Real.sqrt`. -/

/-- a^μ = −Γ^μ_{αβ} u^α u^β + f^μ with f^μ = −g^{μν} ∂_ν V when a potential
is supplied (`integrators.hpp accel`). -/
def accel (M : MetricPack α) (G : Gamma α) (u : vec4 α) (P : Option (Potential α))
    (x : vec4 α) : vec4 α :=
  let base : vec4 α := fun mu => -(∑ a, ∑ b, G mu a b * u a * u b)
  match P with
  | none => base
  | some V => fun mu => base mu + -(∑ nu, M.g_inv mu nu * gradV V x fd_h nu)

/-- Project a timelike 4-velocity back onto g(u,u) = −1; left unchanged when
g(u,u) ≥ 0 (`integrators.hpp renormalize_timelike`). -/
def renormalize_timelike (sq : α → α) (g : mat4 α) (u : vec4 α) : vec4 α :=
  let s := qform g u
  if 0 ≤ s then u else fun i => u i * (1 / sq (-s))

/-- Velocity-Verlet style step (`integrators.hpp geodesic_step`); returns
the updated (x, u). -/
def geodesic_step (sq : α → α) (F : MetricField α) (P : Option (Potential α))
    (x u : vec4 α) (dtau : α) : vec4 α × vec4 α :=
  let M := prepare_metric F x
  let G := christoffel M
  let a0 := accel M G u P x
  let uh : vec4 α := fun i => u i + (1 / 2) * dtau * a0 i
  let x1 : vec4 α := fun i => x i + dtau * uh i
  let M1 := prepare_metric F x1
  let G1 := christoffel M1
  let a1 := accel M1 G1 uh P x1
  let u1 : vec4 α := fun i => uh i + (1 / 2) * dtau * a1 i
  (x1, renormalize_timelike sq M1.g u1)

/-- `integrators.hpp rk4_geodesic`: routes to the velocity-Verlet step. -/
def rk4_geodesic (sq : α → α) (F : MetricField α) (x u : vec4 α) (dtau : α)
    (P : Option (Potential α)) : vec4 α × vec4 α :=
  geodesic_step sq F P x u dtau

/-! ### PD proxy and Cholesky check (`audits/pd_proxy.hpp`)

The fixed-trip-count Cholesky loops are unrolled into one named definition
per computed entry, in the order the C++ loop produces them. -/

/-- PD proxy g̃ = g·g (`pd_proxy.hpp pd_proxy_square`). -/
def pd_proxy_square (g : mat4 α) : mat4 α := mul g g

/-- Cholesky pivot at (0,0): `sum = A[0][0]`. -/
def chS0 (A : mat4 α) : α := A 0 0

/-- L[0][0] = √(pivot 0). -/
def chL00 (sq : α → α) (A : mat4 α) : α := sq (chS0 A)

/-- L[1][0] = A[1][0] / L[0][0]. -/
def chL10 (sq : α → α) (A : mat4 α) : α := A 1 0 / chL00 sq A

/-- Cholesky pivot at (1,1): A[1][1] − L[1][0]². -/
def chS1 (sq : α → α) (A : mat4 α) : α := A 1 1 - chL10 sq A * chL10 sq A

/-- L[1][1] = √(pivot 1). -/
def chL11 (sq : α → α) (A : mat4 α) : α := sq (chS1 sq A)

/-- L[2][0] = A[2][0] / L[0][0]. -/
def chL20 (sq : α → α) (A : mat4 α) : α := A 2 0 / chL00 sq A

/-- L[2][1] = (A[2][1] − L[2][0]·L[1][0]) / L[1][1]. -/
def chL21 (sq : α → α) (A : mat4 α) : α :=
  (A 2 1 - chL20 sq A * chL10 sq A) / chL11 sq A

/-- Cholesky pivot at (2,2): A[2][2] − L[2][0]² − L[2][1]². -/
def chS2 (sq : α → α) (A : mat4 α) : α :=
  A 2 2 - chL20 sq A * chL20 sq A - chL21 sq A * chL21 sq A

/-- L[2][2] = √(pivot 2). -/
def chL22 (sq : α → α) (A : mat4 α) : α := sq (chS2 sq A)

/-- L[3][0] = A[3][0] / L[0][0]. -/
def chL30 (sq : α → α) (A : mat4 α) : α := A 3 0 / chL00 sq A

/-- L[3][1] = (A[3][1] − L[3][0]·L[1][0]) / L[1][1]. -/
def chL31 (sq : α → α) (A : mat4 α) : α :=
  (A 3 1 - chL30 sq A * chL10 sq A) / chL11 sq A

/-- L[3][2] = (A[3][2] − L[3][0]·L[2][0] − L[3][1]·L[2][1]) / L[2][2]. -/
def chL32 (sq : α → α) (A : mat4 α) : α :=
  (A 3 2 - chL30 sq A * chL20 sq A - chL31 sq A * chL21 sq A) / chL22 sq A

/-- Cholesky pivot at (3,3): A[3][3] − L[3][0]² − L[3][1]² − L[3][2]². -/
def chS3 (sq : α → α) (A : mat4 α) : α :=
  A 3 3 - chL30 sq A * chL30 sq A - chL31 sq A * chL31 sq A - chL32 sq A * chL32 sq A

/-- L[3][3] = √(pivot 3). -/
def chL33 (sq : α → α) (A : mat4 α) : α := sq (chS3 sq A)

/-- 4×4 Cholesky A = L·Lᵀ (`pd_proxy.hpp cholesky4`): fails (none) as soon
as a pivot `sum` is ≤ eps, otherwise returns the lower-triangular L. -/
def cholesky4 (sq : α → α) (A : mat4 α) (eps : α) : Option (mat4 α) :=
  if chS0 A ≤ eps then none
  else if chS1 sq A ≤ eps then none
  else if chS2 sq A ≤ eps then none
  else if chS3 sq A ≤ eps then none
  else some (Matrix.of fun i j =>
    ![![chL00 sq A, 0, 0, 0],
      ![chL10 sq A, chL11 sq A, 0, 0],
      ![chL20 sq A, chL21 sq A, chL22 sq A, 0],
      ![chL30 sq A, chL31 sq A, chL32 sq A, chL33 sq A]] i j)

/-- Diagnostic report of the PD check (`pd_proxy.hpp PDReport`). -/
structure PDReport (α : Type) where
  ok : Bool
  min_diagL : α
  max_diagL : α

/-- PD check by Cholesky with eps = 0 (`pd_proxy.hpp check_pd`). -/
def check_pd (sq : α → α) (A : mat4 α) : PDReport α :=
  match cholesky4 sq A 0 with
  | none => ⟨false, 0, 0⟩
  | some L =>
      ⟨true,
       min (min (min (min (L 0 0) (L 0 0)) (L 1 1)) (L 2 2)) (L 3 3),
       max (max (max (max (L 0 0) (L 0 0)) (L 1 1)) (L 2 2)) (L 3 3)⟩

/-! ### Concrete instances used by witnesses and counterexamples -/

/-- The timelike test velocity u = (1,0,0,0). -/
def uTime : vec4 α := ![1, 0, 0, 0]

/-- A smooth symmetric metric field g(x) = diag(−1, 1 + x⁰·x¹, 1, 1),
used as a concrete query field. -/
def FieldCex : MetricField ℚ := fun x => diag4 (-1) (1 + x 0 * x 1) 1 1

/-- The concrete query point (1, 2, 0, 0). -/
def xCex : vec4 ℚ := ![1, 2, 0, 0]

/-- The all-zero 4×4 matrix over ℚ (a matrix with a zero row). -/
def zeroMatQ : mat4 ℚ := Matrix.of fun _ _ => 0

/-- Invariant of the forward elimination: some row with index ≥ j has an
all-zero left (coefficient) block. -/
def ZeroRowGE (j : ℕ) (S : AugState α) : Prop :=
  ∃ z : Fin 4, j ≤ z.val ∧ ∀ c : Fin 4, S.aug z (lcol c) = 0

/-! ## Theorems -/

/-- Both match arms of `prepare_metric` carry the same metric. -/
theorem prepare_metric_g (F : MetricField α) (x : vec4 α) :
    (prepare_metric F x).g = F x := by
  unfold prepare_metric
  split <;> rfl

/-- Both match arms of `prepare_metric` carry the same partials. -/
theorem prepare_metric_dg (F : MetricField α) (x : vec4 α) :
    (prepare_metric F x).dg = dmetric4 F x fd_h := by
  unfold prepare_metric
  split <;> rfl

/-- C9: `rk4_geodesic` routes straight to the velocity-Verlet
`geodesic_step` with the same field, potential, state and step: the two
public entry points are one and the same integrator. -/
theorem rk4_geodesic_eq_geodesic_step (sq : α → α) (F : MetricField α)
    (x u : vec4 α) (dtau : α) (P : Option (Potential α)) :
    rk4_geodesic sq F x u dtau P = geodesic_step sq F P x u dtau := rfl

/-- C10: whenever `prepare_metric` reports inversion failure
(`inv_ok = false`), its `g_inv` field is the all-zero matrix, since
`inverse` never writes its output argument on the failure path and the
C++ out-parameter is default-initialized to zero. -/
theorem prepare_metric_ginv_zero_on_failure (F : MetricField α) (x : vec4 α)
    (hfail : (prepare_metric F x).inv_ok = false) :
    ∀ i j, (prepare_metric F x).g_inv i j = 0 := by
  intro i j
  unfold prepare_metric at hfail ⊢
  rcases hres : inverse (F x) ((1 : α) / 100000000000000) with _ | ⟨iv, d, c⟩
  · simp
  · rw [hres] at hfail
    simp at hfail

/-- Witness for C10: the zero field makes the inversion fail, and the
resulting pack indeed carries a zero `g_inv`. -/
theorem prepare_metric_ginv_zero_on_failure_witness :
    (prepare_metric (fun _ => zeroMatQ) uTime).inv_ok = false ∧
      ∀ i j, (prepare_metric (fun _ => zeroMatQ) uTime).g_inv i j = 0 :=
  ⟨by with_unfolding_all decide,
   prepare_metric_ginv_zero_on_failure (fun _ => zeroMatQ) uTime
     (by with_unfolding_all decide)⟩

/-- C5: for a `MetricPack` whose four partial-derivative matrices are
symmetric (as `dmetric4` produces from a symmetric field), the Christoffel
symbols are exactly symmetric in the lower index pair. -/
theorem christoffel_symmetric_lower (M : MetricPack α)
    (hdg : ∀ a i j, M.dg a i j = M.dg a j i) (mu a b : Fin 4) :
    christoffel M mu a b = christoffel M mu b a := by
  unfold christoffel
  congr 1
  refine Finset.sum_congr rfl fun nu _ => ?_
  rw [hdg nu a b]
  ring

/-- Witness for C5: a concrete pack with symmetric (zero) partials has
symmetric Christoffel symbols. -/
theorem christoffel_symmetric_lower_witness :
    (∀ a i j, (MetricPack.mk (minkowski_eta (α := ℚ)) minkowski_eta
        (fun _ => Matrix.of fun _ _ => 0) true).dg a i j =
      (MetricPack.mk (minkowski_eta (α := ℚ)) minkowski_eta
        (fun _ => Matrix.of fun _ _ => 0) true).dg a j i) ∧
    christoffel (MetricPack.mk (minkowski_eta (α := ℚ)) minkowski_eta
        (fun _ => Matrix.of fun _ _ => 0) true) 0 1 2 =
      christoffel (MetricPack.mk (minkowski_eta (α := ℚ)) minkowski_eta
        (fun _ => Matrix.of fun _ _ => 0) true) 0 2 1 :=
  ⟨by intro a i j; rfl,
   christoffel_symmetric_lower _ (by intro a i j; rfl) 0 1 2⟩

/-- C6: the curvature tensor assembled by `riemann_at` is exactly
antisymmetric in its last two indices, for every metric field and point. -/
theorem riemann_at_antisymmetric_last_pair (F : MetricField α) (x : vec4 α)
    (mu nu a b : Fin 4) :
    riemann_at F x mu nu a b = -(riemann_at F x mu nu b a) := by
  unfold riemann_at
  have hsum :
      (∑ sig, (christoffel (prepare_metric F x) mu sig a *
                 christoffel (prepare_metric F x) sig nu b -
               christoffel (prepare_metric F x) mu sig b *
                 christoffel (prepare_metric F x) sig nu a)) =
      -∑ sig, (christoffel (prepare_metric F x) mu sig b *
                 christoffel (prepare_metric F x) sig nu a -
               christoffel (prepare_metric F x) mu sig a *
                 christoffel (prepare_metric F x) sig nu b) := by
    rw [← Finset.sum_neg_distrib]
    exact Finset.sum_congr rfl fun s _ => by ring
  rw [hsum]
  ring

/-- C4: the final stage of `geodesic_step` renormalizes the new velocity by
1/√(−q), with q = u_newᵀ g(x_new) u_new taken at the updated position, only
when q < 0; otherwise the velocity is returned unmodified, and the updated
position is the same in both cases. -/
theorem geodesic_step_renormalizes_only_timelike (F : MetricField ℝ)
    (P : Option (Potential ℝ)) (x u : vec4 ℝ) (dtau : ℝ) :
    (geodesic_step Real.sqrt F P x u dtau).1 =
      (fun i => x i + dtau * (u i + (1 / 2) * dtau *
        accel (prepare_metric F x) (christoffel (prepare_metric F x)) u P x i)) ∧
    (geodesic_step Real.sqrt F P x u dtau).2 =
      (let uh : vec4 ℝ := fun i => u i + (1 / 2) * dtau *
          accel (prepare_metric F x) (christoffel (prepare_metric F x)) u P x i
       let x1 : vec4 ℝ := fun i => x i + dtau * uh i
       let M1 := prepare_metric F x1
       let u1 : vec4 ℝ := fun i => uh i + (1 / 2) * dtau *
          accel M1 (christoffel M1) uh P x1 i
       if qform M1.g u1 < 0 then (fun i => u1 i * (1 / Real.sqrt (-qform M1.g u1)))
       else u1) := by
  constructor
  · rfl
  · simp only [geodesic_step, renormalize_timelike]
    split_ifs with h1 h2 h3
    · exact absurd h2 (not_lt.mpr h1)
    · rfl
    · rfl
    · exact absurd (lt_of_not_le h1) h3

/-- Entries of the finite difference of the constant flat field vanish. -/
theorem dmetric_minkowski (x : vec4 α) (a : Fin 4) (h : α) (r c : Fin 4) :
    dmetric MinkowskiField x a h r c = 0 := by
  simp [dmetric, MinkowskiField]

/-- Christoffel symbols of the flat field vanish identically. -/
theorem christoffel_minkowski (x : vec4 α) (mu a b : Fin 4) :
    christoffel (prepare_metric MinkowskiField x) mu a b = 0 := by
  unfold christoffel
  rw [prepare_metric_dg]
  simp [dmetric4, dmetric_minkowski]

/-- The geodesic acceleration with no potential vanishes when Γ = 0. -/
theorem accel_none_zero (M : MetricPack α) (G : Gamma α)
    (hG : ∀ mu a b, G mu a b = 0) (u x : vec4 α) (mu : Fin 4) :
    accel M G u none x mu = 0 := by
  simp [accel, hG]

/-- qform of η at u = (1,0,0,0) is −1. -/
theorem qform_eta_uTime : qform (minkowski_eta (α := α)) uTime = -1 := by
  norm_num [qform, minkowski_eta, diag4, uTime, Fin.sum_univ_four]

/-- One flat free step advances x by dtau in time and keeps u = (1,0,0,0). -/
theorem geodesic_step_flat (x : vec4 ℝ) (dtau : ℝ) :
    geodesic_step Real.sqrt MinkowskiField none x uTime dtau =
      (fun i => x i + dtau * uTime i, uTime) := by
  have ha0 : ∀ (y u : vec4 ℝ) (mu : Fin 4),
      accel (prepare_metric MinkowskiField y)
        (christoffel (prepare_metric MinkowskiField y)) u none y mu = 0 :=
    fun y u mu => accel_none_zero _ _ (fun m a b => christoffel_minkowski y m a b) u y mu
  have huh : ∀ y : vec4 ℝ, (fun i => uTime (α := ℝ) i + (1 / 2) * dtau *
      accel (prepare_metric MinkowskiField y)
        (christoffel (prepare_metric MinkowskiField y)) uTime none y i) = uTime := by
    intro y
    funext i
    rw [ha0]
    ring
  have huh2 : ∀ (y : vec4 ℝ) (i : Fin 4), uTime (α := ℝ) i + (1 / 2) * dtau *
      accel (prepare_metric MinkowskiField y)
        (christoffel (prepare_metric MinkowskiField y)) uTime none y i = uTime i := by
    intro y i
    rw [ha0]
    ring
  simp only [geodesic_step, huh, huh2]
  refine Prod.ext rfl ?_
  simp only [renormalize_timelike, prepare_metric_g]
  rw [show (MinkowskiField (fun i => x i + dtau * uTime (α := ℝ) i)) = minkowski_eta from rfl,
    qform_eta_uTime]
  norm_num [Real.sqrt_one]

/-- C2: in flat spacetime with no potential, starting from u = (1,0,0,0),
any number n of geodesic steps of any size dtau leaves the velocity exactly
(1,0,0,0) and advances the position by n·dtau in the time component only. -/
theorem geodesic_flat_straight_line (x0 : vec4 ℝ) (dtau : ℝ) (n : ℕ) :
    (fun s : vec4 ℝ × vec4 ℝ =>
        geodesic_step Real.sqrt MinkowskiField none s.1 s.2 dtau)^[n] (x0, uTime) =
      (fun i => x0 i + (n : ℝ) * dtau * uTime i, uTime) := by
  induction n with
  | zero =>
      refine Prod.ext ?_ rfl
      funext i
      simp
  | succ n ih =>
      rw [Function.iterate_succ_apply', ih]
      simp only [geodesic_step_flat]
      refine Prod.ext ?_ rfl
      funext i
      push_cast
      ring

/-- The pivot search returns a row index ≥ k and the absolute value of that
row's entry in column k. -/
theorem pivotSearch_spec (g : Fin 4 → Fin 8 → α) (k : Fin 4) :
    k ≤ (pivotSearch g k).1 ∧ (pivotSearch g k).2 = |g (pivotSearch g k).1 (lcol k)| := by
  have H : ∀ l : List (Fin 4), (∀ r ∈ l, k < r) → ∀ pm : Fin 4 × α,
      k ≤ pm.1 → pm.2 = |g pm.1 (lcol k)| →
      k ≤ (l.foldl (fun pm r => if |g r (lcol k)| > pm.2 then (r, |g r (lcol k)|) else pm) pm).1 ∧
        (l.foldl (fun pm r => if |g r (lcol k)| > pm.2 then (r, |g r (lcol k)|) else pm) pm).2 =
          |g (l.foldl (fun pm r => if |g r (lcol k)| > pm.2 then (r, |g r (lcol k)|) else pm) pm).1
            (lcol k)| := by
    intro l
    induction l with
    | nil => exact fun _ pm h1 h2 => ⟨h1, h2⟩
    | cons a t ih =>
        intro hmem pm h1 h2
        rw [List.foldl_cons]
        by_cases hc : |g a (lcol k)| > pm.2
        · rw [if_pos hc]
          exact ih (fun r hr => hmem r (List.mem_cons_of_mem a hr)) _
            (le_of_lt (hmem a (List.mem_cons_self a t))) rfl
        · rw [if_neg hc]
          exact ih (fun r hr => hmem r (List.mem_cons_of_mem a hr)) _ h1 h2
  unfold pivotSearch
  exact H _ (fun r hr => of_decide_eq_true (List.mem_filter.mp hr).2) _ le_rfl rfl

/-- At the last column there are no candidate rows below, so the pivot
search returns row k itself. -/
theorem pivotSearch_last {g : Fin 4 → Fin 8 → α} {k : Fin 4} (hk : k.val = 3) :
    pivotSearch g k = (k, |g k (lcol k)|) := by
  unfold pivotSearch
  have hnil : ((List.finRange 4).filter fun r => k < r) = [] := by
    rw [List.filter_eq_nil_iff]
    intro r _
    simp only [decide_eq_true_eq, not_lt, Fin.le_def, hk]
    omega
  rw [hnil]
  rfl

/-- A small pivot makes the elimination step fail. -/
theorem elimStep_none {k : Fin 4} {eps : α} {S : AugState α}
    (h : (pivotSearch S.aug k).2 < eps) : elimStep k eps S = none := by
  unfold elimStep
  rw [if_pos h]

/-- Inversion of a successful elimination step: the pivot passed the
tolerance and the new rows are the eliminated, scaled, swapped rows. -/
theorem elimStep_some {k : Fin 4} {eps : α} {S S' : AugState α}
    (h : elimStep k eps S = some S') :
    eps ≤ (pivotSearch S.aug k).2 ∧
      S'.aug = eliminateBelow (scaleRow (elimSwap S.aug k (pivotSearch S.aug k).1) k
        (1 / elimSwap S.aug k (pivotSearch S.aug k).1 k (lcol k))) k := by
  unfold elimStep at h
  by_cases hlt : (pivotSearch S.aug k).2 < eps
  · rw [if_pos hlt] at h
    cases h
  · rw [if_neg hlt] at h
    exact ⟨not_lt.mp hlt, by rw [← Option.some.inj h]⟩

/-- A successful elimination step keeps a zero left-block row, pushing its
index past the processed column. -/
theorem elimStep_preserves_zero_row {k : Fin 4} {eps : α} (heps : 0 < eps)
    {S S' : AugState α} (hzr : ZeroRowGE k.val S) (h : elimStep k eps S = some S') :
    ZeroRowGE (k.val + 1) S' := by
  obtain ⟨z, hz, hzero⟩ := hzr
  obtain ⟨hple, hpval⟩ := pivotSearch_spec S.aug k
  obtain ⟨hge, haug⟩ := elimStep_some h
  have hzabs : |S.aug z (lcol k)| = 0 := by rw [hzero k, abs_zero]
  have hpos : (0 : α) < (pivotSearch S.aug k).2 := lt_of_lt_of_le heps hge
  have hpz : (pivotSearch S.aug k).1 ≠ z := by
    intro e
    rw [hpval, e, hzabs] at hpos
    exact lt_irrefl 0 hpos
  have hkz : k ≤ z := Fin.le_def.mpr hz
  have hg1 : ∃ z1 : Fin 4, k < z1 ∧
      ∀ c : Fin 4, elimSwap S.aug k (pivotSearch S.aug k).1 z1 (lcol c) = 0 := by
    by_cases hpk : (pivotSearch S.aug k).1 = k
    · have hzk : z ≠ k := fun e => hpz (hpk.trans e.symm)
      refine ⟨z, lt_of_le_of_ne hkz (fun e => hzk e.symm), fun c => ?_⟩
      unfold elimSwap
      rw [if_pos hpk]
      exact hzero c
    · by_cases hzk : z = k
      · refine ⟨(pivotSearch S.aug k).1, lt_of_le_of_ne hple (fun e => hpk e.symm), fun c => ?_⟩
        unfold elimSwap swapRows
        rw [if_neg hpk, if_neg hpk, if_pos rfl]
        exact hzk ▸ hzero c
      · have hzp : z ≠ (pivotSearch S.aug k).1 := fun e => hpz e.symm
        refine ⟨z, lt_of_le_of_ne hkz (fun e => hzk e.symm), fun c => ?_⟩
        unfold elimSwap swapRows
        rw [if_neg hpk, if_neg hzk, if_neg hzp]
        exact hzero c
  obtain ⟨z1, hz1lt, hz1zero⟩ := hg1
  have hz1k : z1 ≠ k := ne_of_gt hz1lt
  refine ⟨z1, by have := Fin.lt_def.mp hz1lt; omega, fun c => ?_⟩
  rw [haug]
  unfold eliminateBelow scaleRow
  rw [if_pos hz1lt, if_neg hz1k, if_neg hz1k, hz1zero c, hz1zero k]
  ring

/-- With a zero left-block row at index 3, the last elimination step must
fail: its only pivot candidate is the zero entry. -/
theorem elimStep_last_none {k : Fin 4} (hk : k.val = 3) {eps : α} (heps : 0 < eps)
    {S : AugState α} (hzr : ZeroRowGE 3 S) : elimStep k eps S = none := by
  obtain ⟨z, hz, hzero⟩ := hzr
  have hzk : z = k := by
    have h1 := z.isLt
    exact Fin.ext (by omega)
  apply elimStep_none
  rw [pivotSearch_last hk]
  show |S.aug k (lcol k)| < eps
  rw [show S.aug k (lcol k) = 0 from by have h2 := hzero k; rwa [hzk] at h2, abs_zero]
  exact heps

/-- Unfolding equation for `fwdRun` at a successor stage. -/
theorem fwdRun_succ (A : mat4 α) (eps : α) (n : ℕ) :
    fwdRun A eps (n + 1) = (fwdRun A eps n).bind
      (fun S => if h : n < 4 then elimStep ⟨n, h⟩ eps S else some S) := rfl

/-- Once the forward elimination has failed it stays failed. -/
theorem fwdRun_none_propagates (A : mat4 α) (eps : α) (n : ℕ)
    (h : fwdRun A eps n = none) : ∀ m, fwdRun A eps (n + m) = none := by
  intro m
  induction m with
  | zero => exact h
  | succ m ih => rw [show n + (m + 1) = (n + m) + 1 from rfl, fwdRun_succ, ih]; rfl

/-- `inverse` fails as soon as any forward stage fails. -/
theorem inverse_none_of_fwd_none (A : mat4 α) (eps : α) {n : ℕ} (hn : n ≤ 4)
    (h : fwdRun A eps n = none) : inverse A eps = none := by
  have h4 := fwdRun_none_propagates A eps n h (4 - n)
  rw [show n + (4 - n) = 4 from by omega] at h4
  unfold inverse
  rw [h4]
  rfl

/-- A matrix with an all-zero row makes `inverse` report failure for any
positive tolerance. -/
theorem inverse_none_of_zero_row (A : mat4 α) (eps : α) (heps : 0 < eps)
    (r : Fin 4) (hr : ∀ c : Fin 4, A r c = 0) : inverse A eps = none := by
  have h0 : ZeroRowGE 0 (initAug A) := by
    refine ⟨r, Nat.zero_le _, fun c => ?_⟩
    have hent : (initAug A).aug r (lcol c) = A r c := by
      simp [initAug, lcol, Fin.is_lt, Fin.eta]
    rw [hent]
    exact hr c
  rcases h1 : fwdRun A eps 1 with _ | S1
  · exact inverse_none_of_fwd_none A eps (by omega) h1
  have hz1 : ZeroRowGE 1 S1 := by
    rw [fwdRun_succ, show fwdRun A eps 0 = some (initAug A) from rfl, Option.some_bind,
      dif_pos (show (0 : ℕ) < 4 by omega)] at h1
    exact elimStep_preserves_zero_row heps h0 h1
  rcases h2 : fwdRun A eps 2 with _ | S2
  · exact inverse_none_of_fwd_none A eps (by omega) h2
  have hz2 : ZeroRowGE 2 S2 := by
    rw [fwdRun_succ, h1, Option.some_bind, dif_pos (show (1 : ℕ) < 4 by omega)] at h2
    exact elimStep_preserves_zero_row heps hz1 h2
  rcases h3 : fwdRun A eps 3 with _ | S3
  · exact inverse_none_of_fwd_none A eps (by omega) h3
  have hz3 : ZeroRowGE 3 S3 := by
    rw [fwdRun_succ, h2, Option.some_bind, dif_pos (show (2 : ℕ) < 4 by omega)] at h3
    exact elimStep_preserves_zero_row heps hz2 h3
  have h4 : fwdRun A eps 4 = none := by
    rw [fwdRun_succ, h3, Option.some_bind, dif_pos (show (3 : ℕ) < 4 by omega)]
    exact elimStep_last_none rfl heps hz3
  exact inverse_none_of_fwd_none A eps (by omega) h4

/-- A pivot below tolerance at any reached forward stage makes `inverse`
report failure. -/
theorem inverse_none_of_small_pivot (A : mat4 α) (eps : α) (k : ℕ) (hk : k < 4)
    (S : AugState α) (hS : fwdRun A eps k = some S)
    (hp : (pivotSearch S.aug ⟨k, hk⟩).2 < eps) : inverse A eps = none := by
  apply inverse_none_of_fwd_none A eps (n := k + 1) (by omega)
  rw [fwdRun_succ, hS, Option.some_bind, dif_pos hk]
  exact elimStep_none hp

/-- C7: `inverse` reports failure (returns none, the embedding of the C++
`false`) for every matrix with an all-zero row at the default tolerance
1e-14, and, more generally, whenever the forward elimination reaches a step
at which the largest available pivot magnitude in the current column is
below the caller-supplied tolerance. -/
theorem inverse_failure_reporting :
    (∀ (A : mat4 α) (r : Fin 4), (∀ c : Fin 4, A r c = 0) →
        inverse A (1 / 100000000000000) = none) ∧
    (∀ (A : mat4 α) (eps : α) (k : ℕ) (hk : k < 4) (S : AugState α),
        fwdRun A eps k = some S → (pivotSearch S.aug ⟨k, hk⟩).2 < eps →
        inverse A eps = none) :=
  ⟨fun A r hr => inverse_none_of_zero_row A _ (by norm_num) r hr,
   fun A eps k hk S hS hp => inverse_none_of_small_pivot A eps k hk S hS hp⟩

/-- Witness for C7: the zero matrix has a zero row, and indeed `inverse`
fails on it at the default tolerance; at tolerance 1, the pivot of the very
first stage is below tolerance and `inverse` fails as well. -/
theorem inverse_failure_reporting_witness :
    ((∀ c : Fin 4, zeroMatQ 0 c = 0) ∧
      inverse zeroMatQ (1 / 100000000000000 : ℚ) = none) ∧
    (fwdRun zeroMatQ 1 0 = some (initAug zeroMatQ) ∧
      (pivotSearch (initAug zeroMatQ).aug ⟨0, by omega⟩).2 < (1 : ℚ) ∧
      inverse zeroMatQ (1 : ℚ) = none) :=
  ⟨⟨fun _ => rfl, inverse_failure_reporting.1 zeroMatQ 0 (fun _ => rfl)⟩,
   ⟨rfl, by with_unfolding_all decide,
    inverse_failure_reporting.2 zeroMatQ 1 0 (by omega) (initAug zeroMatQ) rfl
      (by with_unfolding_all decide)⟩⟩

set_option maxRecDepth 1000000 in
/-- C1: the Einstein tensor returned by `einstein_at` is NOT exactly
symmetric for every metric field and query point: for the symmetric field
g(x) = diag(−1, 1 + x⁰·x¹, 1, 1) at the point (1,2,0,0), the (0,1) and
(1,0) components differ, because `einstein_at` fills the `sym4` result
entrywise without symmetrization and the finite-difference Ricci tensor is
not exactly symmetric. -/
theorem einstein_at_not_symmetric_cex :
    einstein_at FieldCex xCex 0 1 ≠ einstein_at FieldCex xCex 1 0 := by
  with_unfolding_all decide

/-- The source quadratic form agrees with the Mathlib dot product of v with
A·v. -/
theorem qform_eq_dotProduct (A : mat4 ℝ) (v : vec4 ℝ) :
    qform A v = Matrix.dotProduct v (A.mulVec v) := rfl

/-- The source matrix product agrees with the Mathlib matrix product. -/
theorem mul_eq_matrix_mul (A B : mat4 α) : mul A B = A * B := by
  ext i j
  rw [Matrix.mul_apply]
  rfl

/-- For symmetric non-singular g over ℝ, the quadratic form of the proxy
g·g is positive definite. -/
theorem qform_pd_proxy_pos (g : mat4 ℝ) (hsym : ∀ i j, g i j = g j i)
    (hdet : Matrix.det g ≠ 0) (v : vec4 ℝ) (hv : v ≠ 0) :
    0 < qform (pd_proxy_square g) v := by
  have htr : g.transpose = g := by
    ext i j
    rw [Matrix.transpose_apply]
    exact hsym j i
  have hvm : Matrix.vecMul v g = g.mulVec v := by
    conv_lhs => rw [← htr]
    exact Matrix.vecMul_transpose g v
  have hq : qform (pd_proxy_square g) v =
      Matrix.dotProduct (g.mulVec v) (g.mulVec v) := by
    rw [qform_eq_dotProduct]
    unfold pd_proxy_square
    rw [mul_eq_matrix_mul, ← Matrix.mulVec_mulVec, Matrix.dotProduct_mulVec, hvm]
  rw [hq]
  have hw : g.mulVec v ≠ 0 := by
    intro h0
    exact hdet (Matrix.exists_mulVec_eq_zero_iff.mp ⟨v, hv, h0⟩)
  have hnn : 0 ≤ Matrix.dotProduct (g.mulVec v) (g.mulVec v) :=
    Finset.sum_nonneg fun i _ => mul_self_nonneg _
  rcases hnn.lt_or_eq with hlt | heq
  · exact hlt
  · exact absurd (Matrix.dotProduct_self_eq_zero.mp heq.symm) hw

/-- The 4×4 Cholesky check succeeds on every symmetric matrix with a
positive-definite quadratic form: all four pivots are values of the form
at explicitly constructed nonzero vectors. -/
theorem check_pd_ok_of_posdef (A : mat4 ℝ) (hsym : ∀ i j, A i j = A j i)
    (hpd : ∀ v : vec4 ℝ, v ≠ 0 → 0 < qform A v) :
    (check_pd Real.sqrt A).ok = true := by
  -- stage 0
  have h0 : 0 < chS0 A := by
    have hv : (![(1:ℝ), 0, 0, 0] : vec4 ℝ) ≠ 0 := by
      intro h
      have h1 := congrFun h 0
      norm_num at h1
    have he : qform A ![(1:ℝ), 0, 0, 0] = chS0 A := by
      simp [qform, Fin.sum_univ_four, chS0]
    have hq := hpd _ hv
    rwa [he] at hq
  have hl00 : chL00 Real.sqrt A * chL00 Real.sqrt A = chS0 A := by
    unfold chL00
    exact Real.mul_self_sqrt h0.le
  have hl00pos : 0 < chL00 Real.sqrt A := by
    unfold chL00
    exact Real.sqrt_pos.mpr h0
  have hl00ne : chL00 Real.sqrt A ≠ 0 := ne_of_gt hl00pos
  have eA00 : A 0 0 = chL00 Real.sqrt A * chL00 Real.sqrt A := by rw [hl00]; rfl
  have eA10 : A 1 0 = chL10 Real.sqrt A * chL00 Real.sqrt A := by
    unfold chL10
    rw [div_mul_cancel₀ _ hl00ne]
  -- stage 1
  have h1 : 0 < chS1 Real.sqrt A := by
    have hv : (![-(chL10 Real.sqrt A / chL00 Real.sqrt A), 1, 0, 0] : vec4 ℝ) ≠ 0 := by
      intro h
      have h1 := congrFun h 1
      norm_num at h1
    have he : qform A ![-(chL10 Real.sqrt A / chL00 Real.sqrt A), 1, 0, 0] =
        chS1 Real.sqrt A := by
      simp [qform, Fin.sum_univ_four, hsym 0 1]
      rw [eA00, eA10]
      unfold chS1
      field_simp
      ring
    have hq := hpd _ hv
    rwa [he] at hq
  have hl11 : chL11 Real.sqrt A * chL11 Real.sqrt A = chS1 Real.sqrt A := by
    unfold chL11
    exact Real.mul_self_sqrt h1.le
  have hl11pos : 0 < chL11 Real.sqrt A := by
    unfold chL11
    exact Real.sqrt_pos.mpr h1
  have hl11ne : chL11 Real.sqrt A ≠ 0 := ne_of_gt hl11pos
  have eA11 : A 1 1 = chL10 Real.sqrt A * chL10 Real.sqrt A +
      chL11 Real.sqrt A * chL11 Real.sqrt A := by
    rw [hl11]
    unfold chS1
    ring
  have eA20 : A 2 0 = chL20 Real.sqrt A * chL00 Real.sqrt A := by
    unfold chL20
    rw [div_mul_cancel₀ _ hl00ne]
  have eA21 : A 2 1 = chL20 Real.sqrt A * chL10 Real.sqrt A +
      chL21 Real.sqrt A * chL11 Real.sqrt A := by
    have h2 : chL21 Real.sqrt A * chL11 Real.sqrt A =
        A 2 1 - chL20 Real.sqrt A * chL10 Real.sqrt A := by
      unfold chL21
      rw [div_mul_cancel₀ _ hl11ne]
    rw [h2]
    ring
  -- stage 2
  have h2 : 0 < chS2 Real.sqrt A := by
    have hv : (![-((chL20 Real.sqrt A + chL10 Real.sqrt A *
          -(chL21 Real.sqrt A / chL11 Real.sqrt A)) / chL00 Real.sqrt A),
        -(chL21 Real.sqrt A / chL11 Real.sqrt A), 1, 0] : vec4 ℝ) ≠ 0 := by
      intro h
      have h1 := congrFun h 2
      norm_num at h1
    have he : qform A ![-((chL20 Real.sqrt A + chL10 Real.sqrt A *
          -(chL21 Real.sqrt A / chL11 Real.sqrt A)) / chL00 Real.sqrt A),
        -(chL21 Real.sqrt A / chL11 Real.sqrt A), 1, 0] = chS2 Real.sqrt A := by
      simp [qform, Fin.sum_univ_four, hsym 0 1, hsym 0 2, hsym 1 2]
      rw [eA00, eA10, eA11, eA20, eA21]
      unfold chS2
      field_simp
      ring
    have hq := hpd _ hv
    rwa [he] at hq
  have hl22 : chL22 Real.sqrt A * chL22 Real.sqrt A = chS2 Real.sqrt A := by
    unfold chL22
    exact Real.mul_self_sqrt h2.le
  have hl22pos : 0 < chL22 Real.sqrt A := by
    unfold chL22
    exact Real.sqrt_pos.mpr h2
  have hl22ne : chL22 Real.sqrt A ≠ 0 := ne_of_gt hl22pos
  have eA22 : A 2 2 = chL20 Real.sqrt A * chL20 Real.sqrt A +
      chL21 Real.sqrt A * chL21 Real.sqrt A +
      chL22 Real.sqrt A * chL22 Real.sqrt A := by
    rw [hl22]
    unfold chS2
    ring
  have eA30 : A 3 0 = chL30 Real.sqrt A * chL00 Real.sqrt A := by
    unfold chL30
    rw [div_mul_cancel₀ _ hl00ne]
  have eA31 : A 3 1 = chL30 Real.sqrt A * chL10 Real.sqrt A +
      chL31 Real.sqrt A * chL11 Real.sqrt A := by
    have h3 : chL31 Real.sqrt A * chL11 Real.sqrt A =
        A 3 1 - chL30 Real.sqrt A * chL10 Real.sqrt A := by
      unfold chL31
      rw [div_mul_cancel₀ _ hl11ne]
    rw [h3]
    ring
  have eA32 : A 3 2 = chL30 Real.sqrt A * chL20 Real.sqrt A +
      chL31 Real.sqrt A * chL21 Real.sqrt A +
      chL32 Real.sqrt A * chL22 Real.sqrt A := by
    have h3 : chL32 Real.sqrt A * chL22 Real.sqrt A =
        A 3 2 - chL30 Real.sqrt A * chL20 Real.sqrt A -
          chL31 Real.sqrt A * chL21 Real.sqrt A := by
      unfold chL32
      rw [div_mul_cancel₀ _ hl22ne]
    rw [h3]
    ring
  -- stage 3
  have h3 : 0 < chS3 Real.sqrt A := by
    have hv : (![-((chL30 Real.sqrt A + chL10 Real.sqrt A *
          -((chL31 Real.sqrt A + chL21 Real.sqrt A *
              -(chL32 Real.sqrt A / chL22 Real.sqrt A)) / chL11 Real.sqrt A) +
          chL20 Real.sqrt A * -(chL32 Real.sqrt A / chL22 Real.sqrt A)) / chL00 Real.sqrt A),
        -((chL31 Real.sqrt A + chL21 Real.sqrt A *
            -(chL32 Real.sqrt A / chL22 Real.sqrt A)) / chL11 Real.sqrt A),
        -(chL32 Real.sqrt A / chL22 Real.sqrt A), 1] : vec4 ℝ) ≠ 0 := by
      intro h
      have h1 := congrFun h 3
      norm_num at h1
    have he : qform A ![-((chL30 Real.sqrt A + chL10 Real.sqrt A *
          -((chL31 Real.sqrt A + chL21 Real.sqrt A *
              -(chL32 Real.sqrt A / chL22 Real.sqrt A)) / chL11 Real.sqrt A) +
          chL20 Real.sqrt A * -(chL32 Real.sqrt A / chL22 Real.sqrt A)) / chL00 Real.sqrt A),
        -((chL31 Real.sqrt A + chL21 Real.sqrt A *
            -(chL32 Real.sqrt A / chL22 Real.sqrt A)) / chL11 Real.sqrt A),
        -(chL32 Real.sqrt A / chL22 Real.sqrt A), 1] = chS3 Real.sqrt A := by
      simp [qform, Fin.sum_univ_four, hsym 0 1, hsym 0 2, hsym 0 3, hsym 1 2,
        hsym 1 3, hsym 2 3]
      rw [eA00, eA10, eA11, eA20, eA21, eA22, eA30, eA31, eA32]
      unfold chS3
      field_simp
      ring
    have hq := hpd _ hv
    rwa [he] at hq
  -- all four pivots positive: the Cholesky succeeds
  unfold check_pd cholesky4
  rw [if_neg (not_le.mpr h0), if_neg (not_le.mpr h1), if_neg (not_le.mpr h2),
    if_neg (not_le.mpr h3)]

/-- C8: for every symmetric 4×4 matrix g, the proxy
`pd_proxy_square g = g·g` is exactly symmetric, and whenever g is in
addition non-singular the Cholesky-based `check_pd` reports the proxy
positive definite. -/
theorem pd_proxy_square_symmetric_and_pd (g : mat4 ℝ)
    (hsym : ∀ i j, g i j = g j i) :
    (∀ i j, pd_proxy_square g i j = pd_proxy_square g j i) ∧
      (Matrix.det g ≠ 0 → (check_pd Real.sqrt (pd_proxy_square g)).ok = true) := by
  have hpsym : ∀ i j, pd_proxy_square g i j = pd_proxy_square g j i := by
    intro i j
    unfold pd_proxy_square mul
    rw [Matrix.of_apply, Matrix.of_apply]
    refine Finset.sum_congr rfl fun k _ => ?_
    rw [hsym j k, hsym k i]
    ring
  exact ⟨hpsym, fun hdet =>
    check_pd_ok_of_posdef _ hpsym (qform_pd_proxy_pos g hsym hdet)⟩

/-- Witness for C8: η is symmetric with det η = −1 ≠ 0, its proxy square is
symmetric, and the Cholesky check accepts it. -/
theorem pd_proxy_square_symmetric_and_pd_witness :
    ((∀ i j, minkowski_eta (α := ℝ) i j = minkowski_eta (α := ℝ) j i) ∧
      Matrix.det (minkowski_eta (α := ℝ)) ≠ 0) ∧
    ((∀ i j, pd_proxy_square (minkowski_eta (α := ℝ)) i j =
        pd_proxy_square (minkowski_eta (α := ℝ)) j i) ∧
      (check_pd Real.sqrt (pd_proxy_square (minkowski_eta (α := ℝ)))).ok = true) := by
  have hsym : ∀ i j, minkowski_eta (α := ℝ) i j = minkowski_eta (α := ℝ) j i := by
    intro i j
    fin_cases i <;> fin_cases j <;> rfl
  have hdiag : minkowski_eta (α := ℝ) = Matrix.diagonal ![(-1 : ℝ), 1, 1, 1] := by
    ext i j
    simp [minkowski_eta, diag4, Matrix.diagonal]
  have hdet : Matrix.det (minkowski_eta (α := ℝ)) ≠ 0 := by
    rw [hdiag, Matrix.det_diagonal]
    norm_num [Fin.prod_univ_four]
  exact ⟨⟨hsym, hdet⟩, ⟨(pd_proxy_square_symmetric_and_pd minkowski_eta hsym).1,
    (pd_proxy_square_symmetric_and_pd minkowski_eta hsym).2 hdet⟩⟩

end rslm
